import Mathlib

/-!
Shallow embedding of `prepare_hdT.py` (function `find_hdT`).

Modelling conventions:
* numpy float arrays are modelled as `List ℚ` (exact rational arithmetic,
  the usual idealization of the script's real-number intent);
* `np.inf` sentinels inside the `T` array are modelled as `none : Option ℚ`,
  a finite entry `v` as `some v`;
* a Python exception aborting the run is modelled as `Except.error`:
  - `PyError.emptyReduction` models the `ValueError` raised by `np.min` /
    `np.max` on an empty array,
  - `PyError.numericDegenerate` models the `OverflowError`/`ValueError`
    raised by `int(np.ceil(np.log2(v)))` (resp. `floor`) when `v ≤ 0`
    (log2 yields `-inf`/`nan`, which `int()` refuses),
  - `PyError.typeError` models the `TypeError` raised by
    `np.arange(None, None, 0.001)` when `l`/`r` stayed `None`,
  - `PyError.invalidDomain` is the error named by the specification's
    taxonomy; the script never raises it (no constructor of the embedding
    produces it);
* the external collaborators from `utils` (not part of the repository
  sources) are parameters: `sel` stands for `select_elements_by_step`
  (returning the selected index list) and `inv` for
  `inverse_f(target_func, ·, b)`; the target function itself is the
  parameter `f`, standing for the function resolved from its name.
-/

inductive PyError where
  | invalidDomain
  | numericDegenerate
  | emptyReduction
  | typeError
deriving DecidableEq, Repr

deriving instance DecidableEq for Except

/-- The loaded `config.json` values used by `find_hdT`:
`config["dy"]`, `config["l"]`, `config["r"]`. -/
structure Config where
  dy : ℚ
  l : ℚ
  r : ℚ
deriving DecidableEq, Repr

/-- The `hdT` dictionary built at the end of `find_hdT` (the persisted
record). `h` is stored transposed, exactly as `torch.tensor(np.array(h).T)`
stores it. -/
structure HdT where
  h : List (List ℚ)
  d : List ℚ
  T : List (Option ℚ)
  b : ℚ
  dy : ℚ
  K : ℤ
  i_bit : ℤ
  f_bit : ℤ
  l : ℚ
  r : ℚ
  num_h : ℕ
deriving DecidableEq, Repr

/-- `np.arange(l, r, step)` for `step > 0`: the `⌈(r-l)/step⌉` values
`l + k·step` (empty when `r ≤ l`). -/
def arange (l r step : ℚ) : List ℚ :=
  (List.range (⌈(r - l) / step⌉.toNat)).map (fun k : ℕ => l + (k : ℚ) * step)

/-- `x = np.arange(l, r, 0.001)` — the sampling grid; the `0.001` step is
hard-coded in the script. -/
def sampleX (l r : ℚ) : List ℚ :=
  arange l r (1 / 1000)

/-- `y = target_func(x)`. -/
def rawY (f : ℚ → ℚ) (l r : ℚ) : List ℚ :=
  (sampleX l r).map f

/-- `y += b` applied to the raw samples. -/
def shiftedY (f : ℚ → ℚ) (l r b : ℚ) : List ℚ :=
  (rawY f l r).map (fun v => v + b)

/-- `np.min` as a left fold; `none` on the empty array (where numpy raises). -/
def npMin : List ℚ → Option ℚ
  | [] => none
  | a :: t => some (t.foldl min a)

/-- `np.max` as a left fold; `none` on the empty array (where numpy raises). -/
def npMax : List ℚ → Option ℚ
  | [] => none
  | a :: t => some (t.foldl max a)

/-- Fuel-based floor-log₂ on naturals: `nlog2 fuel n = ⌊log₂ n⌋` whenever
`1 ≤ n ≤ fuel` (see `nlog2_spec`). Structural recursion keeps it
kernel-computable. -/
def nlog2 : ℕ → ℕ → ℕ
  | 0, _ => 0
  | fuel + 1, n => if n ≤ 1 then 0 else nlog2 fuel (n / 2) + 1

/-- `⌊log₂ q⌋` for `1 ≤ q`, computed from the integer part of `q`. -/
def flog2N (q : ℚ) : ℤ :=
  (nlog2 ⌊q⌋.toNat ⌊q⌋.toNat : ℕ)

/-- `int(np.ceil(np.log2 q))` for `q > 0`: the least `n` with `q ≤ 2^n`
(see `clog2_spec`). -/
def clog2 (q : ℚ) : ℤ :=
  if 1 ≤ q then
    if q ≤ (2 : ℚ) ^ flog2N q then flog2N q else flog2N q + 1
  else
    -(flog2N q⁻¹)

/-- `int(np.floor(np.log2 q))` for `q > 0`: the greatest `n` with `2^n ≤ q`. -/
def flog2 (q : ℚ) : ℤ :=
  if 1 ≤ q then
    flog2N q
  else
    -(if q⁻¹ ≤ (2 : ℚ) ^ flog2N q⁻¹ then flog2N q⁻¹ else flog2N q⁻¹ + 1)

/-- `d = [0.0] + [2 ** (i_bit - i) for i in range(K)]` — threshold ladder. -/
def dLadder (ib K : ℤ) : List ℚ :=
  0 :: (List.range K.toNat).map (fun i : ℕ => (2 : ℚ) ^ (ib - (i : ℤ)))

/-- numpy boolean-mask selection `v[mask]`. -/
def maskedSelect (v : List ℚ) (mask : List Bool) : List ℚ :=
  (v.zip mask).filterMap (fun p => if p.2 then some p.1 else none)

/-- `y[mask] -= d[t]` for `mask = y > d[t]`: subtract the threshold from
every entry strictly above it. -/
def stepOnce (dt : ℚ) (y : List ℚ) : List ℚ :=
  y.map (fun v => if dt < v then v - dt else v)

/-- The loop `for t in range(1, K + 1)` of `find_hdT`, consuming the
threshold list `d[1], …, d[K]`. At each level: `v_at_t` is the inverse
image of the current `y`; the level's `T` entry is
`np.min(v_at_t[mask])` when the mask `y > d[t]` is nonempty, else the
`np.inf` sentinel (`none`); then `y[mask] -= d[t]`. Returns the appended
`h` rows, the `T[1..]` entries, and the final working `y`. -/
def runLevels (g : ℚ → ℚ) : List ℚ → List ℚ → List (List ℚ) × List (Option ℚ) × List ℚ
  | y, [] => ([], [], y)
  | y, dt :: ds =>
    let v := y.map g
    let mask := y.map (fun yi => decide (dt < yi))
    let rest := runLevels g (stepOnce dt y) ds
    (v :: rest.1, npMin (maskedSelect v mask) :: rest.2.1, rest.2.2)

/-- The working `y` after the first `t` loop iterations (thresholds
`ds[0], …, ds[t-1]` applied in order). -/
def yBefore (ds y0 : List ℚ) : ℕ → List ℚ
  | 0 => y0
  | t + 1 =>
    match ds[t]? with
    | some dt => stepOnce dt (yBefore ds y0 t)
    | none => yBefore ds y0 t

/-- The argument-defaulting prologue of `find_hdT`: `if dy is None:` pulls
all three of `dy`, `l`, `r` from the config (discarding any supplied `l`,
`r`); otherwise the given `dy` is used and `l`, `r` keep their passed
values — `none` (Python `None`) makes the later `np.arange` call fail. -/
def resolveArgs (cfg : Config) (dy? l? r? : Option ℚ) : Option (ℚ × ℚ × ℚ) :=
  match dy? with
  | none => some (cfg.dy, cfg.l, cfg.r)
  | some dy =>
    match l?, r? with
    | some l, some r => some (dy, l, r)
    | _, _ => none

/-- `x[idx]` / `y[idx]` — numpy integer-array indexing by the index list
returned from `select_elements_by_step`. -/
def pickIdx (idx : List ℕ) (xs : List ℚ) : List ℚ :=
  idx.filterMap (fun i => xs[i]?)

/-- The Python list `h` right before the transpose: `h = [x]` followed by
the per-level `v_at_t` rows appended by the loop. -/
def hColumns (g : ℚ → ℚ) (x0 y0 ds : List ℚ) : List (List ℚ) :=
  x0 :: (runLevels g y0 ds).1

/-- The record built on the success path of `find_hdT` (everything after
the bit-width computation has succeeded): selection, ladder, loop, and
packaging, including the transpose `np.array(h).T` and
`num_h = len(h)` taken after that transpose. -/
def buildRecord (sel : List ℚ → ℚ → List ℕ) (inv : ℚ → ℚ → ℚ) (f : ℚ → ℚ)
    (dy l r b M : ℚ) : HdT :=
  let x := sampleX l r
  let ysh := shiftedY f l r b
  let ibit := clog2 M
  let fbit := -(flog2 dy)
  let K := ibit + fbit
  let idx := sel ysh dy
  let y0 := pickIdx idx ysh
  let x0 := pickIdx idx x
  let d := dLadder ibit K
  let out := runLevels (fun v => inv v b) y0 d.tail
  let hT := (hColumns (fun v => inv v b) x0 y0 d.tail).transpose
  { h := hT
    d := d
    T := some 0 :: out.2.1
    b := b
    dy := dy
    K := K
    i_bit := ibit
    f_bit := fbit
    l := l
    r := r
    num_h := hT.length }

/-- Shallow embedding of `find_hdT(target_func_name, dy, l, r)`.
The stages appear in source order: argument defaulting, sampling
(`np.arange` + `target_func`), bias (`b = -np.min(y)`, `y += b`),
bit widths (`i_bit`, `f_bit` — the `M ≤ 0` and `dy ≤ 0` guards model the
exceptions raised by `int(np.ceil/floor(np.log2(·)))` there), then the
selection / ladder / loop / packaging of `buildRecord`. -/
def find_hdT (cfg : Config) (sel : List ℚ → ℚ → List ℕ) (inv : ℚ → ℚ → ℚ)
    (f : ℚ → ℚ) (dy? l? r? : Option ℚ) : Except PyError HdT :=
  match resolveArgs cfg dy? l? r? with
  | none => .error .typeError
  | some (dy, l, r) =>
    match npMin (rawY f l r) with
    | none => .error .emptyReduction
    | some m =>
      match npMax (shiftedY f l r (-m)) with
      | none => .error .emptyReduction
      | some M =>
        if M ≤ 0 then .error .numericDegenerate
        else if dy ≤ 0 then .error .numericDegenerate
        else .ok (buildRecord sel inv f dy l r (-m) M)

/-- A contract-conforming instance of `select_elements_by_step` that keeps
every sample (the inline comment in the script notes the thinning "is not
nessesary"). Used to instantiate witnesses. -/
def selAll : List ℚ → ℚ → List ℕ :=
  fun y _ => List.range y.length

/-- A deterministic instance of the external `inverse_f` helper (the exact
inverse for an affine target shifted by `b`; the claims treat the helper
as an opaque deterministic collaborator). Used to instantiate witnesses. -/
def invFst : ℚ → ℚ → ℚ :=
  fun v _ => v

/-! ### Basic lemmas about the fold-based reductions -/

theorem le_foldl_max_self (t : List ℚ) (acc : ℚ) : acc ≤ t.foldl max acc := by
  induction t generalizing acc with
  | nil => exact le_refl acc
  | cons b t ih => exact le_trans (le_max_left acc b) (ih (max acc b))

theorem le_foldl_max_of_mem {v : ℚ} {t : List ℚ} (acc : ℚ) (hv : v ∈ t) :
    v ≤ t.foldl max acc := by
  induction t generalizing acc with
  | nil => cases hv
  | cons b t ih =>
    rcases List.mem_cons.mp hv with h | h
    · subst h
      exact le_trans (le_max_right acc v) (le_foldl_max_self t (max acc v))
    · exact ih (max acc b) h

theorem npMax_le {xs : List ℚ} {M v : ℚ} (hM : npMax xs = some M) (hv : v ∈ xs) :
    v ≤ M := by
  cases xs with
  | nil => cases hv
  | cons a t =>
    simp only [npMax, Option.some.injEq] at hM
    subst hM
    rcases List.mem_cons.mp hv with h | h
    · subst h; exact le_foldl_max_self t v
    · exact le_foldl_max_of_mem a h

/-! ### The fuel-based logarithms agree with `⌊log₂ ·⌋` / `⌈log₂ ·⌉` -/

theorem nlog2_spec : ∀ fuel n : ℕ, 1 ≤ n → n ≤ fuel →
    2 ^ nlog2 fuel n ≤ n ∧ n < 2 ^ (nlog2 fuel n + 1) := by
  intro fuel
  induction fuel with
  | zero => intro n h1 h2; omega
  | succ fuel ih =>
    intro n h1 h2
    by_cases hsmall : n ≤ 1
    · have hn : n = 1 := le_antisymm hsmall h1
      subst hn
      simp [nlog2]
    · have hrec := ih (n / 2) (by omega) (by omega)
      have hstep : nlog2 (fuel + 1) n = nlog2 fuel (n / 2) + 1 := by
        simp [nlog2, hsmall]
      rw [hstep]
      constructor
      · have h2le : 2 ^ (nlog2 fuel (n / 2)) ≤ n / 2 := hrec.1
        calc 2 ^ (nlog2 fuel (n / 2) + 1) = 2 * 2 ^ (nlog2 fuel (n / 2)) := by ring
          _ ≤ n := by omega
      · have hlt : n / 2 < 2 ^ (nlog2 fuel (n / 2) + 1) := hrec.2
        have : n < 2 * 2 ^ (nlog2 fuel (n / 2) + 1) := by omega
        calc n < 2 * 2 ^ (nlog2 fuel (n / 2) + 1) := this
          _ = 2 ^ (nlog2 fuel (n / 2) + 1 + 1) := by ring

theorem flog2N_spec {q : ℚ} (h1 : 1 ≤ q) :
    (2 : ℚ) ^ flog2N q ≤ q ∧ q < (2 : ℚ) ^ (flog2N q + 1) := by
  set m : ℕ := ⌊q⌋.toNat with hm
  have hfloor1 : (1 : ℤ) ≤ ⌊q⌋ := by
    rw [Int.le_floor]; exact_mod_cast h1
  have hm1 : 1 ≤ m := by omega
  have hmq : (m : ℚ) ≤ q := by
    have : ((m : ℤ) : ℚ) ≤ q := by
      rw [hm, Int.toNat_of_nonneg (by omega)]
      exact Int.floor_le q
    exact_mod_cast this
  have hqm : q < (m : ℚ) + 1 := by
    have : q < (⌊q⌋ : ℚ) + 1 := Int.lt_floor_add_one q
    have hcast : ((m : ℤ) : ℚ) = (⌊q⌋ : ℚ) := by
      rw [hm, Int.toNat_of_nonneg (by omega)]
    calc q < (⌊q⌋ : ℚ) + 1 := this
      _ = (m : ℚ) + 1 := by rw [← hcast]; norm_cast
  obtain ⟨hlo, hhi⟩ := nlog2_spec m m hm1 (le_refl m)
  set k : ℕ := nlog2 m m with hk
  have hze : flog2N q = (k : ℤ) := by rw [flog2N]
  constructor
  · rw [hze]
    have : ((2 ^ k : ℕ) : ℚ) ≤ (m : ℚ) := by exact_mod_cast hlo
    calc (2 : ℚ) ^ (k : ℤ) = ((2 ^ k : ℕ) : ℚ) := by
          rw [zpow_natCast]; norm_cast
      _ ≤ (m : ℚ) := this
      _ ≤ q := hmq
  · rw [hze]
    have hnat : m + 1 ≤ 2 ^ (k + 1) := hhi
    have : ((m : ℚ) + 1) ≤ ((2 ^ (k + 1) : ℕ) : ℚ) := by exact_mod_cast hnat
    calc q < (m : ℚ) + 1 := hqm
      _ ≤ ((2 ^ (k + 1) : ℕ) : ℚ) := this
      _ = (2 : ℚ) ^ ((k : ℤ) + 1) := by
          rw [show ((k : ℤ) + 1) = ((k + 1 : ℕ) : ℤ) by norm_cast, zpow_natCast]
          norm_cast

theorem clog2_spec {q : ℚ} (hq : 0 < q) :
    q ≤ (2 : ℚ) ^ clog2 q ∧ (2 : ℚ) ^ (clog2 q - 1) < q := by
  by_cases h1 : 1 ≤ q
  · obtain ⟨hlo, hhi⟩ := flog2N_spec h1
    by_cases h2 : q ≤ (2 : ℚ) ^ flog2N q
    · have hc : clog2 q = flog2N q := by simp [clog2, h1, h2]
      refine ⟨by rw [hc]; exact h2, ?_⟩
      rw [hc]
      calc (2 : ℚ) ^ (flog2N q - 1) < (2 : ℚ) ^ flog2N q :=
            zpow_lt_zpow_right₀ (by norm_num) (by omega)
        _ ≤ q := hlo
    · have hc : clog2 q = flog2N q + 1 := by simp [clog2, h1, h2]
      refine ⟨by rw [hc]; exact le_of_lt hhi, ?_⟩
      rw [hc]
      simpa using lt_of_not_le h2
  · have hq1 : 1 ≤ q⁻¹ := (one_le_inv₀ hq).mpr (le_of_not_le h1)
    obtain ⟨hlo, hhi⟩ := flog2N_spec hq1
    have hc : clog2 q = -(flog2N q⁻¹) := by simp [clog2, h1]
    have hpow : (0 : ℚ) < (2 : ℚ) ^ flog2N q⁻¹ := by positivity
    constructor
    · rw [hc, zpow_neg]
      have hmono : (q⁻¹)⁻¹ ≤ ((2 : ℚ) ^ flog2N q⁻¹)⁻¹ := inv_anti₀ hpow hlo
      rwa [inv_inv] at hmono
    · rw [hc]
      have hpos : (0 : ℚ) < q⁻¹ := inv_pos.mpr hq
      have hmono : ((2 : ℚ) ^ (flog2N q⁻¹ + 1))⁻¹ < (q⁻¹)⁻¹ := inv_strictAnti₀ hpos hhi
      rw [inv_inv] at hmono
      calc (2 : ℚ) ^ (-(flog2N q⁻¹) - 1) = ((2 : ℚ) ^ (flog2N q⁻¹ + 1))⁻¹ := by
            rw [← zpow_neg]
            congr 1
            ring
        _ < q := hmono

/-! ### Structural lemmas about the loop -/

theorem maskedSelect_map (g : ℚ → ℚ) (p : ℚ → Bool) (y : List ℚ) :
    maskedSelect (y.map g) (y.map p) = (y.filter p).map g := by
  induction y with
  | nil => rfl
  | cons a t ih =>
    simp only [List.map_cons, maskedSelect, List.zip_cons_cons, List.filterMap_cons,
      List.filter_cons]
    cases hpa : p a with
    | true => simpa [maskedSelect] using congrArg (g a :: ·) ih
    | false => simpa [maskedSelect] using ih

theorem stepOnce_of_none_above {dt : ℚ} {y : List ℚ} (h : ∀ v ∈ y, ¬ dt < v) :
    stepOnce dt y = y := by
  unfold stepOnce
  rw [List.map_congr_left (fun v hv => if_neg (h v hv))]
  exact List.map_id y

theorem filter_above_nil {dt : ℚ} {y : List ℚ} (h : ∀ v ∈ y, ¬ dt < v) :
    y.filter (fun v => decide (dt < v)) = [] :=
  List.filter_eq_nil_iff.mpr (fun v hv => by simpa using h v hv)

theorem yBefore_cons_succ (dt : ℚ) (ds y0 : List ℚ) (t : ℕ) :
    yBefore (dt :: ds) y0 (t + 1) = yBefore ds (stepOnce dt y0) t := by
  induction t with
  | zero =>
    show (match (dt :: ds)[0]? with
      | some d2 => stepOnce d2 (yBefore (dt :: ds) y0 0)
      | none => yBefore (dt :: ds) y0 0) = _
    rw [List.getElem?_cons_zero]
    rfl
  | succ t ih =>
    show (match (dt :: ds)[t + 1]? with
      | some d2 => stepOnce d2 (yBefore (dt :: ds) y0 (t + 1))
      | none => yBefore (dt :: ds) y0 (t + 1)) = _
    rw [ih, List.getElem?_cons_succ]
    rfl

theorem yBefore_cons_zero_step (dt : ℚ) (ds y0 : List ℚ) :
    yBefore (dt :: ds) y0 1 = stepOnce dt y0 := yBefore_cons_succ dt ds y0 0

theorem runLevels_h_length (g : ℚ → ℚ) : ∀ (ds y : List ℚ),
    (runLevels g y ds).1.length = ds.length := by
  intro ds
  induction ds with
  | nil => intro y; rfl
  | cons dt ds ih => intro y; simpa [runLevels] using ih (stepOnce dt y)

theorem runLevels_T_length (g : ℚ → ℚ) : ∀ (ds y : List ℚ),
    (runLevels g y ds).2.1.length = ds.length := by
  intro ds
  induction ds with
  | nil => intro y; rfl
  | cons dt ds ih => intro y; simpa [runLevels] using ih (stepOnce dt y)

theorem runLevels_T_get (g : ℚ → ℚ) : ∀ (ds y0 : List ℚ) (t : ℕ), t < ds.length →
    (runLevels g y0 ds).2.1[t]? =
      some (npMin (((yBefore ds y0 t).filter (fun v => decide (ds.getD t 0 < v))).map g)) := by
  intro ds
  induction ds with
  | nil => intro y0 t ht; cases ht
  | cons dt ds ih =>
    intro y0 t ht
    have hstep : (runLevels g y0 (dt :: ds)).2.1 =
        npMin (maskedSelect (y0.map g) (y0.map fun yi => decide (dt < yi))) ::
          (runLevels g (stepOnce dt y0) ds).2.1 := rfl
    cases t with
    | zero =>
      rw [hstep, List.getElem?_cons_zero, maskedSelect_map, List.getD_cons_zero]
      rfl
    | succ t =>
      have ht' : t < ds.length := by simpa using ht
      rw [hstep, List.getElem?_cons_succ, ih (stepOnce dt y0) t ht', yBefore_cons_succ,
        List.getD_cons_succ]

theorem runLevels_h_get (g : ℚ → ℚ) : ∀ (ds y0 : List ℚ) (t : ℕ), t < ds.length →
    (runLevels g y0 ds).1[t]? = some ((yBefore ds y0 t).map g) := by
  intro ds
  induction ds with
  | nil => intro y0 t ht; cases ht
  | cons dt ds ih =>
    intro y0 t ht
    have hstep : (runLevels g y0 (dt :: ds)).1 =
        y0.map g :: (runLevels g (stepOnce dt y0) ds).1 := rfl
    cases t with
    | zero => rw [hstep, List.getElem?_cons_zero]; rfl
    | succ t =>
      have ht' : t < ds.length := by simpa using ht
      rw [hstep, List.getElem?_cons_succ, ih (stepOnce dt y0) t ht', yBefore_cons_succ]

/-! ### The threshold ladder -/

theorem dLadder_length (ib K : ℤ) : (dLadder ib K).length = K.toNat + 1 := by
  rw [dLadder, List.length_cons, List.length_map, List.length_range]

theorem dLadder_get_zero (ib K : ℤ) : (dLadder ib K)[0]? = some 0 := by
  rw [dLadder, List.getElem?_cons_zero]

theorem dLadder_tail_get {ib K : ℤ} {t : ℕ} (ht : t < K.toNat) :
    (dLadder ib K).tail[t]? = some ((2 : ℚ) ^ (ib - (t : ℤ))) := by
  rw [dLadder]
  show ((List.range K.toNat).map (fun i : ℕ => (2 : ℚ) ^ (ib - (i : ℤ))))[t]? = _
  rw [List.getElem?_map, List.getElem?_range ht, Option.map_some']

theorem dLadder_get {ib K : ℤ} {i : ℕ} (h1 : 1 ≤ i) (h2 : i ≤ K.toNat) :
    (dLadder ib K)[i]? = some ((2 : ℚ) ^ (ib - (i : ℤ) + 1)) := by
  obtain ⟨j, rfl⟩ : ∃ j, i = j + 1 := ⟨i - 1, by omega⟩
  have hj : j < K.toNat := by omega
  rw [dLadder, List.getElem?_cons_succ, List.getElem?_map, List.getElem?_range hj,
    Option.map_some']
  congr 2
  push_cast
  ring

theorem dLadder_tail_length (ib K : ℤ) : (dLadder ib K).tail.length = K.toNat := by
  rw [dLadder, List.tail_cons, List.length_map, List.length_range]

/-! ### Membership through the selection stage -/

theorem pickIdx_mem {idx : List ℕ} {xs : List ℚ} {v : ℚ} (hv : v ∈ pickIdx idx xs) :
    v ∈ xs := by
  obtain ⟨i, _, hget⟩ := List.mem_filterMap.mp hv
  exact List.getElem?_mem hget

/-! ### Inversion of the success path of `find_hdT` -/

theorem find_hdT_ok_elim {cfg : Config} {sel : List ℚ → ℚ → List ℕ}
    {inv : ℚ → ℚ → ℚ} {f : ℚ → ℚ} {dy? l? r? : Option ℚ} {rec : HdT}
    (h : find_hdT cfg sel inv f dy? l? r? = .ok rec) :
    ∃ dy l r m M, resolveArgs cfg dy? l? r? = some (dy, l, r) ∧
      npMin (rawY f l r) = some m ∧
      npMax (shiftedY f l r (-m)) = some M ∧
      ¬ M ≤ 0 ∧ ¬ dy ≤ 0 ∧
      rec = buildRecord sel inv f dy l r (-m) M := by
  unfold find_hdT at h
  cases hres : resolveArgs cfg dy? l? r? with
  | none => rw [hres] at h; exact absurd h (by simp)
  | some tri =>
    obtain ⟨dy, l, r⟩ := tri
    rw [hres] at h
    dsimp only at h
    cases hmin : npMin (rawY f l r) with
    | none => rw [hmin] at h; exact absurd h (by simp)
    | some m =>
      rw [hmin] at h
      dsimp only at h
      cases hmax : npMax (shiftedY f l r (-m)) with
      | none => rw [hmax] at h; exact absurd h (by simp)
      | some M =>
        rw [hmax] at h
        dsimp only at h
        by_cases hM : M ≤ 0
        · rw [if_pos hM] at h; exact absurd h (by simp)
        · rw [if_neg hM] at h
          by_cases hdy : dy ≤ 0
          · rw [if_pos hdy] at h; exact absurd h (by simp)
          · rw [if_neg hdy] at h
            exact ⟨dy, l, r, m, M, rfl, hmin, hmax, hM, hdy, (Except.ok.inj h).symm⟩

/-! ### Projections of the built record -/

theorem buildRecord_d (sel : List ℚ → ℚ → List ℕ) (inv : ℚ → ℚ → ℚ) (f : ℚ → ℚ)
    (dy l r b M : ℚ) :
    (buildRecord sel inv f dy l r b M).d = dLadder (clog2 M) (clog2 M + -(flog2 dy)) := rfl

theorem buildRecord_K (sel : List ℚ → ℚ → List ℕ) (inv : ℚ → ℚ → ℚ) (f : ℚ → ℚ)
    (dy l r b M : ℚ) :
    (buildRecord sel inv f dy l r b M).K = clog2 M + -(flog2 dy) := rfl

theorem buildRecord_ibit (sel : List ℚ → ℚ → List ℕ) (inv : ℚ → ℚ → ℚ) (f : ℚ → ℚ)
    (dy l r b M : ℚ) :
    (buildRecord sel inv f dy l r b M).i_bit = clog2 M := rfl

theorem buildRecord_T (sel : List ℚ → ℚ → List ℕ) (inv : ℚ → ℚ → ℚ) (f : ℚ → ℚ)
    (dy l r b M : ℚ) :
    (buildRecord sel inv f dy l r b M).T =
      some 0 :: (runLevels (fun v => inv v b)
        (pickIdx (sel (shiftedY f l r b) dy) (shiftedY f l r b))
        ((dLadder (clog2 M) (clog2 M + -(flog2 dy))).tail)).2.1 := rfl

/-! ### Claim theorems -/

/-- C1: for every valid run of `find_hdT`, `T[0] = 0`, and for every level
`t` of the loop, the `T` entry of that level is either the `+inf` sentinel
(`none`, exactly when no remaining sample's current `y` strictly exceeds
the level threshold) or the minimum of the inverse vector `h[t]` restricted
to the samples whose pre-subtraction `y` strictly exceeded the threshold
(stated via `runLevels` over the working `y` given by `yBefore`; `npMin`
of the filtered list is `none` precisely on the empty restriction). -/
theorem T_level_minima :
    (∀ (cfg : Config) (sel : List ℚ → ℚ → List ℕ) (inv : ℚ → ℚ → ℚ) (f : ℚ → ℚ)
        (dy? l? r? : Option ℚ) (rec : HdT),
        find_hdT cfg sel inv f dy? l? r? = .ok rec → rec.T[0]? = some (some 0)) ∧
    (∀ (g : ℚ → ℚ) (y0 ds : List ℚ) (t : ℕ), t < ds.length →
        (runLevels g y0 ds).2.1[t]? =
          some (npMin (((yBefore ds y0 t).filter (fun v => decide (ds.getD t 0 < v))).map g))) := by
  constructor
  · intro cfg sel inv f dy? l? r? rec h
    obtain ⟨dy, l, r, m, M, _, _, _, _, _, hb⟩ := find_hdT_ok_elim h
    subst hb
    rw [buildRecord_T, List.getElem?_cons_zero]
  · exact fun g y0 ds t ht => runLevels_T_get g ds y0 t ht

unseal Rat.add Rat.mul Rat.inv Rat.sub in
theorem T_level_minima_witness :
    (buildRecord selAll invFst (fun v => 1000 * v) (1/2) 0 (2/1000) 0 1).T[0]? =
      some (some 0) ∧
    (runLevels (fun v => v) [3] [(1 : ℚ)]).2.1[0]? = some (some 3) := by
  constructor
  · have hrec : find_hdT ⟨1/2, 0, 2/1000⟩ selAll invFst (fun v => 1000 * v) none none none =
        Except.ok (buildRecord selAll invFst (fun v => 1000 * v) (1/2) 0 (2/1000) 0 1) := by
      decide
    exact T_level_minima.1 _ _ _ _ _ _ _ _ hrec
  · have h := T_level_minima.2 (fun v => v) [3] [(1 : ℚ)] 0 (by decide)
    rw [h]
    decide

/-- C3: when the sampled array is nonempty but the maximum of the shifted
`y` is `≤ 0` (so `log2` is undefined on it), `find_hdT` fails with the
degenerate-numerics error instead of computing an `i_bit` of `-inf`/`NaN`
and continuing. -/
theorem degenerate_max_errors
    (cfg : Config) (sel : List ℚ → ℚ → List ℕ) (inv : ℚ → ℚ → ℚ) (f : ℚ → ℚ)
    (dy l r m M : ℚ)
    (hmin : npMin (rawY f l r) = some m)
    (hmax : npMax (shiftedY f l r (-m)) = some M)
    (hM : M ≤ 0) :
    find_hdT cfg sel inv f (some dy) (some l) (some r) =
      .error PyError.numericDegenerate := by
  unfold find_hdT
  have hres : resolveArgs cfg (some dy) (some l) (some r) = some (dy, l, r) := rfl
  rw [hres]
  dsimp only
  rw [hmin]
  dsimp only
  rw [hmax]
  dsimp only
  rw [if_pos hM]

unseal Rat.add Rat.mul Rat.inv Rat.sub in
theorem degenerate_max_errors_witness :
    npMin (rawY (fun _ => 5) 0 (1/1000)) = some 5 ∧
    npMax (shiftedY (fun _ => 5) 0 (1/1000) (-5)) = some 0 ∧
    find_hdT ⟨1, 0, 1⟩ selAll invFst (fun _ => 5) (some 1) (some 0) (some (1/1000)) =
      .error PyError.numericDegenerate := by
  refine ⟨by decide, by decide, ?_⟩
  exact degenerate_max_errors ⟨1, 0, 1⟩ selAll invFst (fun _ => 5) 1 0 (1/1000) 5 0
    (by decide) (by decide) (by decide)

/-- C9: for every valid run, the produced ladder `d` has `d[0] = 0` and is
strictly decreasing over the indices `1..K`. -/
theorem ladder_strict_decreasing
    (cfg : Config) (sel : List ℚ → ℚ → List ℕ) (inv : ℚ → ℚ → ℚ) (f : ℚ → ℚ)
    (dy? l? r? : Option ℚ) (rec : HdT)
    (hrec : find_hdT cfg sel inv f dy? l? r? = .ok rec) :
    rec.d[0]? = some 0 ∧
    ∀ i j : ℕ, 1 ≤ i → i < j → (j : ℤ) ≤ rec.K → rec.d.getD j 0 < rec.d.getD i 0 := by
  obtain ⟨dy, l, r, m, M, _, _, _, _, _, hb⟩ := find_hdT_ok_elim hrec
  subst hb
  rw [buildRecord_d, buildRecord_K]
  constructor
  · exact dLadder_get_zero _ _
  · intro i j h1 hij hjK
    have hjN : j ≤ (clog2 M + -(flog2 dy)).toNat := by omega
    have hiN : i ≤ (clog2 M + -(flog2 dy)).toNat := by omega
    rw [List.getD_eq_getElem?_getD, List.getD_eq_getElem?_getD,
      dLadder_get h1 hiN, dLadder_get (by omega) hjN, Option.getD_some, Option.getD_some]
    exact zpow_lt_zpow_right₀ (by norm_num) (by omega)

unseal Rat.add Rat.mul Rat.inv Rat.sub in
theorem ladder_strict_decreasing_witness :
    (buildRecord selAll invFst (fun v => 3500 * v) 1 0 (2/1000) 0 (7/2)).d[0]? = some 0 ∧
    (buildRecord selAll invFst (fun v => 3500 * v) 1 0 (2/1000) 0 (7/2)).d.getD 2 0 <
      (buildRecord selAll invFst (fun v => 3500 * v) 1 0 (2/1000) 0 (7/2)).d.getD 1 0 := by
  have hrec : find_hdT ⟨1, 0, 1⟩ selAll invFst (fun v => 3500 * v)
      (some 1) (some 0) (some (2/1000)) =
      Except.ok (buildRecord selAll invFst (fun v => 3500 * v) 1 0 (2/1000) 0 (7/2)) := by
    decide
  obtain ⟨h0, hlt⟩ := ladder_strict_decreasing _ _ _ _ _ _ _ _ hrec
  exact ⟨h0, hlt 1 2 (by decide) (by decide) (by decide)⟩

unseal Rat.add Rat.mul Rat.inv Rat.sub in
/-- C2 counterexample: at the concrete run with `i_bit = 2`, `K = 2`, the
code's ladder has `d[1] = 4 = 2^i_bit`, whereas the spec formula
`d[i] = 2^(i_bit − i)` would give `2^(2−1) = 2`; the two disagree. -/
theorem d_formula_spec_counterexample :
    (find_hdT ⟨1, 0, 1⟩ selAll invFst (fun v => 3000 * v)
        (some 1) (some 0) (some (2/1000))).toOption.map
      (fun rec => (rec.d[1]?, rec.i_bit)) = some (some 4, 2) ∧
    ¬ ((4 : ℚ) = (2 : ℚ) ^ ((2 : ℤ) - 1)) := by
  exact ⟨by decide, by decide⟩

/-- C2 amended: the ladder of every valid run satisfies `d[0] = 0` and
`d[i] = 2^(i_bit − i + 1)` for `i = 1..K` (the spec's exponent
`i_bit − i` is off by one; `i_bit` and `K = i_bit + f_bit` are as coded). -/
theorem d_formula_code
    (cfg : Config) (sel : List ℚ → ℚ → List ℕ) (inv : ℚ → ℚ → ℚ) (f : ℚ → ℚ)
    (dy? l? r? : Option ℚ) (rec : HdT)
    (hrec : find_hdT cfg sel inv f dy? l? r? = .ok rec)
    (i : ℕ) (h1 : 1 ≤ i) (h2 : (i : ℤ) ≤ rec.K) :
    rec.d[i]? = some ((2 : ℚ) ^ (rec.i_bit - (i : ℤ) + 1)) := by
  obtain ⟨dy, l, r, m, M, _, _, _, _, _, hb⟩ := find_hdT_ok_elim hrec
  subst hb
  rw [buildRecord_K] at h2
  rw [buildRecord_d, buildRecord_ibit]
  exact dLadder_get h1 (by omega)

unseal Rat.add Rat.mul Rat.inv Rat.sub in
theorem d_formula_code_witness :
    (buildRecord selAll invFst (fun v => 4000 * v) 1 0 (2/1000) 0 4).d[1]? =
      some ((2 : ℚ) ^ ((2 : ℤ) - 1 + 1)) := by
  have hrec : find_hdT ⟨1, 0, 1⟩ selAll invFst (fun v => 4000 * v)
      (some 1) (some 0) (some (2/1000)) =
      Except.ok (buildRecord selAll invFst (fun v => 4000 * v) 1 0 (2/1000) 0 4) := by
    decide
  have h := d_formula_code _ _ _ _ _ _ _ _ hrec 1 (by decide) (by decide)
  have hib : (buildRecord selAll invFst (fun v => 4000 * v) 1 0 (2/1000) 0 4).i_bit = 2 := by
    decide
  rw [h, hib]
  norm_num

unseal Rat.add Rat.mul Rat.inv Rat.sub in
/-- C5 counterexample: at a valid run with 4 retained samples and `K = 2`,
the persisted record has `len(d) = len(T) = 3 = K+1` but `len(h) = 4`
(the stored `h` is transposed, so its length is the sample count), refuting
`len(h) = K+1` for the persisted arrays. -/
theorem lengths_counterexample :
    (find_hdT ⟨1, 0, 1⟩ selAll invFst (fun v => v)
        (some (1/1000)) (some 0) (some (4/1000))).toOption.map
      (fun rec => (rec.h.length, rec.d.length, rec.T.length, rec.K)) =
      some (4, 3, 3, 2) ∧
    ¬ ((4 : ℕ) = 2 + 1) := by
  exact ⟨by decide, by decide⟩

/-- C5 amended: as computed, the per-level structures all have `K+1`
entries (`K.toNat + 1` in general): the column list `h`, the ladder `d`
and the minima list `T`; in the persisted record `d` and `T` keep length
`K.toNat + 1`, while `h` is stored transposed, so its stored length equals
`num_h` (the retained-sample count), not `K+1`. -/
theorem hdT_lengths :
    (∀ (cfg : Config) (sel : List ℚ → ℚ → List ℕ) (inv : ℚ → ℚ → ℚ) (f : ℚ → ℚ)
        (dy? l? r? : Option ℚ) (rec : HdT),
        find_hdT cfg sel inv f dy? l? r? = .ok rec →
        rec.d.length = rec.K.toNat + 1 ∧ rec.T.length = rec.K.toNat + 1 ∧
          rec.h.length = rec.num_h) ∧
    (∀ (g : ℚ → ℚ) (x0 y0 ds : List ℚ),
        (hColumns g x0 y0 ds).length = ds.length + 1 ∧
        ((some 0 : Option ℚ) :: (runLevels g y0 ds).2.1).length = ds.length + 1) := by
  constructor
  · intro cfg sel inv f dy? l? r? rec hrec
    obtain ⟨dy, l, r, m, M, _, _, _, _, _, hb⟩ := find_hdT_ok_elim hrec
    subst hb
    refine ⟨?_, ?_, rfl⟩
    · rw [buildRecord_d, buildRecord_K]
      exact dLadder_length _ _
    · rw [buildRecord_T, buildRecord_K, List.length_cons, runLevels_T_length,
        dLadder_tail_length]
  · intro g x0 y0 ds
    constructor
    · rw [hColumns, List.length_cons, runLevels_h_length]
    · rw [List.length_cons, runLevels_T_length]

unseal Rat.add Rat.mul Rat.inv Rat.sub in
theorem hdT_lengths_witness :
    ((buildRecord selAll invFst (fun v => 1000 * v) 2 0 (2/1000) 0 1).d.length =
      (buildRecord selAll invFst (fun v => 1000 * v) 2 0 (2/1000) 0 1).K.toNat + 1 ∧
     (buildRecord selAll invFst (fun v => 1000 * v) 2 0 (2/1000) 0 1).T.length =
      (buildRecord selAll invFst (fun v => 1000 * v) 2 0 (2/1000) 0 1).K.toNat + 1 ∧
     (buildRecord selAll invFst (fun v => 1000 * v) 2 0 (2/1000) 0 1).h.length =
      (buildRecord selAll invFst (fun v => 1000 * v) 2 0 (2/1000) 0 1).num_h) ∧
    (hColumns (fun v => v) [5] [7] [1, 1/2]).length = 2 + 1 := by
  constructor
  · have hrec : find_hdT ⟨1, 0, 1⟩ selAll invFst (fun v => 1000 * v)
        (some 2) (some 0) (some (2/1000)) =
        Except.ok (buildRecord selAll invFst (fun v => 1000 * v) 2 0 (2/1000) 0 1) := by
      decide
    exact hdT_lengths.1 _ _ _ _ _ _ _ _ hrec
  · exact (hdT_lengths.2 (fun v => v) [5] [7] [1, 1/2]).1

/-- C7 (implicit): in every valid run with `K ≥ 1`, no sample exceeds the
first threshold `d[1] = 2^i_bit` (because `i_bit = ⌈log₂(max shifted y)⌉`
gives `2^i_bit ≥ max y`), so `T[1]` is always left at the `+inf` sentinel;
moreover the first iteration's subtraction changes nothing on any list
bounded by `2^⌈log₂ M⌉`. -/
theorem first_level_T_inf :
    (∀ (cfg : Config) (sel : List ℚ → ℚ → List ℕ) (inv : ℚ → ℚ → ℚ) (f : ℚ → ℚ)
        (dy? l? r? : Option ℚ) (rec : HdT),
        find_hdT cfg sel inv f dy? l? r? = .ok rec → 1 ≤ rec.K →
        rec.T[1]? = some none) ∧
    (∀ (M : ℚ) (y0 : List ℚ), 0 < M → (∀ v ∈ y0, v ≤ M) →
        stepOnce ((2 : ℚ) ^ clog2 M) y0 = y0) := by
  constructor
  · intro cfg sel inv f dy? l? r? rec hrec hK
    obtain ⟨dy, l, r, m, M, _, _, hmax, hM, _, hb⟩ := find_hdT_ok_elim hrec
    subst hb
    rw [buildRecord_K] at hK
    have hMpos : 0 < M := lt_of_not_le hM
    have h0K : 0 < (clog2 M + -(flog2 dy)).toNat := by omega
    rw [buildRecord_T, List.getElem?_cons_succ,
      runLevels_T_get _ _ _ 0 (by rw [dLadder_tail_length]; omega)]
    have hgetD : ((dLadder (clog2 M) (clog2 M + -(flog2 dy))).tail).getD 0 0 =
        (2 : ℚ) ^ clog2 M := by
      rw [List.getD_eq_getElem?_getD, dLadder_tail_get h0K]
      simp
    rw [hgetD]
    have hnone : ∀ v ∈ pickIdx (sel (shiftedY f l r (-m)) dy) (shiftedY f l r (-m)),
        ¬ (2 : ℚ) ^ clog2 M < v := by
      intro v hv
      exact not_lt.mpr (le_trans (npMax_le hmax (pickIdx_mem hv)) (clog2_spec hMpos).1)
    rw [show yBefore ((dLadder (clog2 M) (clog2 M + -(flog2 dy))).tail)
        (pickIdx (sel (shiftedY f l r (-m)) dy) (shiftedY f l r (-m))) 0 =
        pickIdx (sel (shiftedY f l r (-m)) dy) (shiftedY f l r (-m)) from rfl,
      filter_above_nil hnone]
    rfl
  · intro M y0 hM hle
    exact stepOnce_of_none_above
      (fun v hv => not_lt.mpr (le_trans (hle v hv) (clog2_spec hM).1))

unseal Rat.add Rat.mul Rat.inv Rat.sub in
theorem first_level_T_inf_witness :
    (buildRecord selAll invFst (fun v => 2000 * v) 1 0 (2/1000) 0 2).T[1]? = some none ∧
    stepOnce ((2 : ℚ) ^ clog2 3) [1, 3] = [1, 3] := by
  constructor
  · have hrec : find_hdT ⟨1, 0, 1⟩ selAll invFst (fun v => 2000 * v)
        (some 1) (some 0) (some (2/1000)) =
        Except.ok (buildRecord selAll invFst (fun v => 2000 * v) 1 0 (2/1000) 0 2) := by
      decide
    exact first_level_T_inf.1 _ _ _ _ _ _ _ _ hrec (by decide)
  · exact first_level_T_inf.2 3 [1, 3] (by decide) (by decide)

/-- C8 (implicit): if every initial working value lies in `[0, 2^i_bit]`,
then after `t` loop iterations (`t ≤ K`) every working value lies in
`[0, 2^(i_bit − t + 1)]`; in particular `d[t]` bounds the residuals after
level `t` for `t ≥ 1` and the working values never become negative. -/
theorem working_y_invariant (ib K : ℤ) (y0 : List ℚ)
    (h0 : ∀ v ∈ y0, 0 ≤ v ∧ v ≤ (2 : ℚ) ^ ib) :
    ∀ t : ℕ, t ≤ K.toNat →
      ∀ v ∈ yBefore ((dLadder ib K).tail) y0 t,
        0 ≤ v ∧ v ≤ (2 : ℚ) ^ (ib - (t : ℤ) + 1) := by
  intro t
  induction t with
  | zero =>
    intro _ v hv
    refine ⟨(h0 v hv).1, ?_⟩
    calc v ≤ (2 : ℚ) ^ ib := (h0 v hv).2
      _ ≤ (2 : ℚ) ^ (ib - ((0 : ℕ) : ℤ) + 1) :=
          zpow_le_zpow_right₀ one_le_two (by omega)
  | succ t ih =>
    intro ht v hv
    have htK : t < K.toNat := by omega
    have hget : ((dLadder ib K).tail)[t]? = some ((2 : ℚ) ^ (ib - (t : ℤ))) :=
      dLadder_tail_get htK
    have hy : yBefore ((dLadder ib K).tail) y0 (t + 1) =
        stepOnce ((2 : ℚ) ^ (ib - (t : ℤ))) (yBefore ((dLadder ib K).tail) y0 t) := by
      show (match ((dLadder ib K).tail)[t]? with
        | some dt => stepOnce dt (yBefore ((dLadder ib K).tail) y0 t)
        | none => yBefore ((dLadder ib K).tail) y0 t) = _
      rw [hget]
    rw [hy] at hv
    obtain ⟨w, hw, hwv⟩ := List.mem_map.mp hv
    obtain ⟨hw0, hwb⟩ := ih (by omega) w hw
    have hexp : ib - ((t : ℤ) + 1) + 1 = ib - (t : ℤ) := by ring
    have hcast : ib - (((t + 1 : ℕ)) : ℤ) + 1 = ib - (t : ℤ) := by push_cast; ring
    have hc : (0 : ℚ) < (2 : ℚ) ^ (ib - (t : ℤ)) := by positivity
    have h2c : (2 : ℚ) ^ (ib - (t : ℤ) + 1) = 2 * (2 : ℚ) ^ (ib - (t : ℤ)) := by
      rw [zpow_add_one₀ (by norm_num : (2 : ℚ) ≠ 0)]
      ring
    rw [hcast]
    by_cases hlt : (2 : ℚ) ^ (ib - (t : ℤ)) < w
    · rw [if_pos hlt] at hwv
      subst hwv
      constructor
      · linarith
      · rw [h2c] at hwb
        linarith
    · rw [if_neg hlt] at hwv
      subst hwv
      exact ⟨hw0, not_lt.mp hlt⟩

unseal Rat.add Rat.mul Rat.inv Rat.sub in
theorem working_y_invariant_witness :
    (1 : ℚ)/2 ∈ yBefore ((dLadder 1 2).tail) [1/2, 2] 2 ∧
    (0 ≤ (1 : ℚ)/2 ∧ (1 : ℚ)/2 ≤ (2 : ℚ) ^ ((1 : ℤ) - ((2 : ℕ) : ℤ) + 1)) := by
  refine ⟨by decide, ?_⟩
  exact working_y_invariant 1 2 [1/2, 2] (by decide) 2 (by decide) (1/2) (by decide)

/-- C10: `find_hdT` is deterministic — two runs with identical arguments,
configuration and (deterministic) helper functions yield records that agree
on every stored field. -/
theorem builder_deterministic
    (cfg : Config) (sel : List ℚ → ℚ → List ℕ) (inv : ℚ → ℚ → ℚ) (f : ℚ → ℚ)
    (dy? l? r? : Option ℚ) (rec1 rec2 : HdT)
    (h1 : find_hdT cfg sel inv f dy? l? r? = .ok rec1)
    (h2 : find_hdT cfg sel inv f dy? l? r? = .ok rec2) :
    rec1.h = rec2.h ∧ rec1.d = rec2.d ∧ rec1.T = rec2.T ∧ rec1.b = rec2.b ∧
    rec1.dy = rec2.dy ∧ rec1.K = rec2.K ∧ rec1.i_bit = rec2.i_bit ∧
    rec1.f_bit = rec2.f_bit ∧ rec1.l = rec2.l ∧ rec1.r = rec2.r ∧
    rec1.num_h = rec2.num_h := by
  have heq : rec1 = rec2 := Except.ok.inj (h1.symm.trans h2)
  subst heq
  exact ⟨rfl, rfl, rfl, rfl, rfl, rfl, rfl, rfl, rfl, rfl, rfl⟩

unseal Rat.add Rat.mul Rat.inv Rat.sub in
theorem builder_deterministic_witness :
    (buildRecord selAll invFst (fun v => 1500 * v) 1 0 (2/1000) 0 (3/2)).h =
      (buildRecord selAll invFst (fun v => 1500 * v) 1 0 (2/1000) 0 (3/2)).h ∧
    (buildRecord selAll invFst (fun v => 1500 * v) 1 0 (2/1000) 0 (3/2)).num_h =
      (buildRecord selAll invFst (fun v => 1500 * v) 1 0 (2/1000) 0 (3/2)).num_h := by
  have hrec : find_hdT ⟨1, 0, 1⟩ selAll invFst (fun v => 1500 * v)
      (some 1) (some 0) (some (2/1000)) =
      Except.ok (buildRecord selAll invFst (fun v => 1500 * v) 1 0 (2/1000) 0 (3/2)) := by
    decide
  obtain ⟨hh, _, _, _, _, _, _, _, _, _, hnum⟩ :=
    builder_deterministic _ _ _ _ _ _ _ _ _ hrec hrec
  exact ⟨hh, hnum⟩

unseal Rat.add Rat.mul Rat.inv Rat.sub in
/-- C4 counterexample: with `dy = -1 ≤ 0` (and a perfectly valid domain)
the run fails with the degenerate-log error, not the spec's
`InvalidDomain`, and the sampling grid for this run is nonempty — the
failure happens at the `f_bit` computation, after sampling. -/
theorem invalid_domain_counterexample :
    find_hdT ⟨1, 0, 1⟩ selAll invFst (fun v => v) (some (-1)) (some 0) (some (2/1000)) =
      .error PyError.numericDegenerate ∧
    PyError.numericDegenerate ≠ PyError.invalidDomain ∧
    sampleX 0 (2/1000) ≠ [] := by
  exact ⟨by decide, by decide, by decide⟩

/-- C4 amended: calls with `r ≤ l` or `dy ≤ 0` do fail, but there is no
upfront `InvalidDomain` validation: the sampling stage runs first in both
cases. `r ≤ l` produces an empty grid and the failure is the empty-array
reduction error at `np.min`; `dy ≤ 0` (with a nonempty grid and positive
shifted maximum) fails with the degenerate-log error at the `f_bit`
computation. -/
theorem late_domain_failure :
    (∀ (cfg : Config) (sel : List ℚ → ℚ → List ℕ) (inv : ℚ → ℚ → ℚ) (f : ℚ → ℚ)
        (dy l r : ℚ), r ≤ l →
        find_hdT cfg sel inv f (some dy) (some l) (some r) =
          .error PyError.emptyReduction) ∧
    (∀ (cfg : Config) (sel : List ℚ → ℚ → List ℕ) (inv : ℚ → ℚ → ℚ) (f : ℚ → ℚ)
        (dy l r m M : ℚ),
        npMin (rawY f l r) = some m →
        npMax (shiftedY f l r (-m)) = some M →
        0 < M → dy ≤ 0 →
        find_hdT cfg sel inv f (some dy) (some l) (some r) =
          .error PyError.numericDegenerate) := by
  constructor
  · intro cfg sel inv f dy l r hrl
    have hempty : sampleX l r = [] := by
      unfold sampleX arange
      have h1 : (r - l) / (1/1000) ≤ 0 := by
        have hsub : r - l ≤ 0 := sub_nonpos.mpr hrl
        have hmul := mul_le_mul_of_nonneg_right hsub (by norm_num : (0 : ℚ) ≤ 1000)
        have heq : (r - l) / (1/1000) = (r - l) * 1000 := by ring
        rw [heq]
        simpa using hmul
      have h2 : ⌈(r - l) / (1/1000)⌉ ≤ 0 := Int.ceil_le.mpr (by exact_mod_cast h1)
      have h3 : (⌈(r - l) / (1/1000)⌉).toNat = 0 := Int.toNat_of_nonpos h2
      rw [h3]
      rfl
    unfold find_hdT
    have hres : resolveArgs cfg (some dy) (some l) (some r) = some (dy, l, r) := rfl
    rw [hres]
    dsimp only
    have hmin : npMin (rawY f l r) = none := by
      unfold rawY
      rw [hempty]
      rfl
    rw [hmin]
  · intro cfg sel inv f dy l r m M hmin hmax hM hdy
    unfold find_hdT
    have hres : resolveArgs cfg (some dy) (some l) (some r) = some (dy, l, r) := rfl
    rw [hres]
    dsimp only
    rw [hmin]
    dsimp only
    rw [hmax]
    dsimp only
    rw [if_neg (not_le.mpr hM), if_pos hdy]

unseal Rat.add Rat.mul Rat.inv Rat.sub in
theorem late_domain_failure_witness :
    find_hdT ⟨1, 0, 1⟩ selAll invFst (fun v => v) (some 1) (some 1) (some 0) =
      .error PyError.emptyReduction ∧
    find_hdT ⟨1, 0, 1⟩ selAll invFst (fun v => v) (some 0) (some 0) (some (1/500)) =
      .error PyError.numericDegenerate := by
  constructor
  · exact late_domain_failure.1 _ selAll invFst _ 1 1 0 (by decide)
  · exact late_domain_failure.2 _ selAll invFst _ 0 0 (1/500) 0 (1/1000)
      (by decide) (by decide) (by decide) (by decide)

unseal Rat.add Rat.mul Rat.inv Rat.sub in
/-- C6 counterexample: supplying `dy` while omitting `l` and `r` does not
pull the configured `l`, `r` — the call fails with the `None`-propagation
error, although the very same call with the configured bounds passed
explicitly succeeds. -/
theorem defaults_counterexample :
    find_hdT ⟨1/2, 0, 2/1000⟩ selAll invFst (fun v => 1000 * v)
      (some (1/2)) none none = .error PyError.typeError ∧
    (find_hdT ⟨1/2, 0, 2/1000⟩ selAll invFst (fun v => 1000 * v)
      (some (1/2)) (some 0) (some (2/1000))).toOption.isSome = true := by
  exact ⟨by decide, by decide⟩

/-- C6 amended: only when `dy` is omitted do all three parameters default
from the configuration (any supplied `l`, `r` are then discarded as well);
when `dy` is supplied but `l` or `r` is omitted, the missing bound stays
`None` and the call fails with the `None`-propagation error instead of
using the configured bounds. -/
theorem config_defaulting (cfg : Config) (sel : List ℚ → ℚ → List ℕ)
    (inv : ℚ → ℚ → ℚ) (f : ℚ → ℚ) (l? r? : Option ℚ) (dyv : ℚ) :
    find_hdT cfg sel inv f none l? r? =
      find_hdT cfg sel inv f (some cfg.dy) (some cfg.l) (some cfg.r) ∧
    find_hdT cfg sel inv f (some dyv) none r? = .error PyError.typeError ∧
    find_hdT cfg sel inv f (some dyv) l? none = .error PyError.typeError := by
  refine ⟨rfl, rfl, ?_⟩
  cases l? with
  | none => rfl
  | some lv => rfl
